import Mathlib

/-!
# Verification of `LIM_analysis.py` (NOAA-PSL/Linear_Inverse_Modeling)

Shallow embedding of the single function `LIM(xDat, lag)` of
`src/LIM_analysis.py`, and proofs about it.

Modelling conventions:

* Real floating-point scalars are modelled by an arbitrary linearly ordered
  field `K` (instantiated at `ℚ` or other concrete fields in witnesses).
  Missing data (NaN) is modelled by `Option K` with `none` for NaN; NaN
  propagation through `*` is `omul`, `np.nansum` is `nansum` (missing entries
  contribute `0`), and float division producing a non-finite value (`0/0`
  for empty pair counts) is `fdiv`, which returns `none` exactly when the
  denominator is zero.
* Complex numbers (`numpy complex128`) are modelled by the pair type `CC K`.
* `numpy.linalg.eig` is a numerical oracle; the code trusts its output
  unconditionally, so the embedding takes the eigensolver as a function
  parameter `eig`.  Likewise `np.log` on complex arrays (the principal
  logarithm) is a parameter `clog`, and the float constant `np.pi` is a
  parameter `piK`.
* `numpy.linalg.inv` raises `LinAlgError Singular matrix` exactly on an
  exactly-singular input; this is modelled by a determinant-zero test before
  using the adjugate inverse `minv` or `cminv`.
* `numpy.linalg.eig` raises `LinAlgError Array must not contain infs or
  NaNs` when fed a non-finite array; a NaN produced by the covariance stage
  propagates through `inv` (which performs no finiteness check) into `G`
  and aborts at the first `eig` call.  This is the `NonFiniteArray` error
  of the embedding.
-/

open scoped Matrix

/-! ## Complex scalars (`numpy complex128` over an abstract field) -/

/-- A complex number over the scalar field `K`: real and imaginary parts. -/
@[ext]
structure CC (K : Type) where
  re : K
  im : K
deriving DecidableEq

namespace CC

variable {K : Type} [CommRing K]

instance : Zero (CC K) := ⟨⟨0, 0⟩⟩
instance : One (CC K) := ⟨⟨1, 0⟩⟩
instance : Add (CC K) := ⟨fun z w => ⟨z.re + w.re, z.im + w.im⟩⟩
instance : Neg (CC K) := ⟨fun z => ⟨-z.re, -z.im⟩⟩
instance : Mul (CC K) := ⟨fun z w => ⟨z.re * w.re - z.im * w.im, z.re * w.im + z.im * w.re⟩⟩

@[simp] theorem zero_re : (0 : CC K).re = 0 := rfl
@[simp] theorem zero_im : (0 : CC K).im = 0 := rfl
@[simp] theorem one_re : (1 : CC K).re = 1 := rfl
@[simp] theorem one_im : (1 : CC K).im = 0 := rfl
@[simp] theorem add_re (z w : CC K) : (z + w).re = z.re + w.re := rfl
@[simp] theorem add_im (z w : CC K) : (z + w).im = z.im + w.im := rfl
@[simp] theorem neg_re (z : CC K) : (-z).re = -z.re := rfl
@[simp] theorem neg_im (z : CC K) : (-z).im = -z.im := rfl
@[simp] theorem mul_re (z w : CC K) : (z * w).re = z.re * w.re - z.im * w.im := rfl
@[simp] theorem mul_im (z w : CC K) : (z * w).im = z.re * w.im + z.im * w.re := rfl

instance instCommRing : CommRing (CC K) where
  add := (· + ·)
  add_assoc := by intros; ext <;> simp <;> ring
  zero := 0
  zero_add := by intros; ext <;> simp
  add_zero := by intros; ext <;> simp
  add_comm := by intros; ext <;> simp <;> ring
  mul := (· * ·)
  mul_assoc := by intros; ext <;> simp <;> ring
  one := 1
  one_mul := by intros; ext <;> simp
  mul_one := by intros; ext <;> simp
  left_distrib := by intros; ext <;> simp <;> ring
  right_distrib := by intros; ext <;> simp <;> ring
  zero_mul := by intros; ext <;> simp
  mul_zero := by intros; ext <;> simp
  mul_comm := by intros; ext <;> simp <;> ring
  neg := Neg.neg
  neg_add_cancel := by intros; ext <;> simp
  nsmul := nsmulRec
  zsmul := zsmulRec

/-- Division of a complex number by a real scalar (used for `b_tau / lag`). -/
def divK [Field K] (z : CC K) (c : K) : CC K := ⟨z.re / c, z.im / c⟩

/-- The inverse of a complex number, `conj z / |z|²` (junk when `z = 0`). -/
def cinv [Field K] (z : CC K) : CC K :=
  ⟨z.re / (z.re ^ 2 + z.im ^ 2), -z.im / (z.re ^ 2 + z.im ^ 2)⟩

theorem normSq_pos {K : Type} [LinearOrderedField K] {z : CC K} (h : z ≠ 0) :
    0 < z.re ^ 2 + z.im ^ 2 := by
  have h2 : z.re ≠ 0 ∨ z.im ≠ 0 := by
    by_contra hc
    push_neg at hc
    exact h (by ext <;> simp [hc.1, hc.2])
  rcases h2 with h2 | h2
  · exact add_pos_of_pos_of_nonneg (by positivity) (sq_nonneg _)
  · exact add_pos_of_nonneg_of_pos (sq_nonneg _) (by positivity)

theorem cinv_mul_cancel {K : Type} [LinearOrderedField K] {z : CC K} (h : z ≠ 0) :
    cinv z * z = 1 := by
  have hs : z.re ^ 2 + z.im ^ 2 ≠ 0 := ne_of_gt (normSq_pos h)
  ext
  · simp only [mul_re, one_re, cinv]
    field_simp
    ring
  · simp only [mul_im, one_im, cinv]
    field_simp
    ring

end CC

/-! ## Step 1: covariance builder (source lines 43–62)

The input `xDat` is `X : Fin N → Fin T → Option K` (row-major
`[variables, time]`, `none` = NaN).  `np.nansum` treats NaN as `0`;
`np.isfinite` of an elementwise product is true exactly when both factors
are finite; the final float division is `fdiv` (NaN when the count is 0). -/

section Covariance

variable {K : Type} [Field K] [DecidableEq K] {N T : ℕ}

/-- NaN-propagating product of two possibly-missing values (`x*y` in numpy). -/
def omul (a b : Option K) : Option K :=
  match a, b with
  | some x, some y => some (x * y)
  | _, _ => none

/-- `np.nansum`: sum of the finite entries (NaN contributes `0`). -/
def nansum {m : ℕ} (f : Fin m → Option K) : K :=
  ∑ t, (f t).getD 0

/-- `np.nansum(np.isfinite f)`: how many entries of `f` are finite. -/
def finiteCount {m : ℕ} (f : Fin m → Option K) : ℕ :=
  (Finset.univ.filter fun t => (f t).isSome).card

/-- Float division: the result is non-finite (NaN/inf) iff the denominator
is `0` (the numerators produced by `nansum` are always finite). -/
def fdiv (s c : K) : Option K :=
  if c = 0 then none else some (s / c)

/-- Index `t + lag` of the lagged series `xLagged[:, t] = xDat[:, t + lag]`
(source lines 48–50). -/
def finShift {T : ℕ} (lag : ℕ) (t : Fin (T - lag)) : Fin T :=
  ⟨t.val + lag, by have := t.isLt; omega⟩

/-- Index `t` of the truncated series `xDat_T[:-lag, :]` viewed inside `Fin T`. -/
def finIncl {T : ℕ} (lag : ℕ) (t : Fin (T - lag)) : Fin T :=
  ⟨t.val, by have := t.isLt; omega⟩

/-- Source line 60: `c0[iR,iC] = np.nansum(xDat[iR,:]*xDat_T[:,iC]) /
np.nansum(np.isfinite(xDat[iR,:]*xDat_T[:,iC]))`. -/
def c0entry (X : Fin N → Fin T → Option K) (i j : Fin N) : Option K :=
  fdiv (nansum fun t => omul (X i t) (X j t))
    ((finiteCount fun t => omul (X i t) (X j t) : ℕ) : K)

/-- Source line 62: `cT[iR,iC] = np.nansum(xLagged[iR,:]*xDat_T[:-lag,iC]) /
np.nansum(np.isfinite(xLagged[iR,:]*xDat_T[:-lag,iC]))`. -/
def cTentry (X : Fin N → Fin T → Option K) (lag : ℕ) (i j : Fin N) : Option K :=
  fdiv (nansum fun t : Fin (T - lag) => omul (X i (finShift lag t)) (X j (finIncl lag t)))
    ((finiteCount fun t : Fin (T - lag) =>
      omul (X i (finShift lag t)) (X j (finIncl lag t)) : ℕ) : K)

/-- The set of time indices where both series are simultaneously finite.
This follows the wording of the spec (pairwise-complete index set). -/
def bothFinite (X : Fin N → Fin T → Option K) (i j : Fin N) : Finset (Fin T) :=
  Finset.univ.filter fun t => (X i t).isSome ∧ (X j t).isSome

/-- Modelled from the spec wording of §4.1: `c0[i,j]` is the sum of
`X[i,t]·X[j,t]` over the positions where both are finite, divided by the
count of finite pairs. -/
def c0spec (X : Fin N → Fin T → Option K) (i j : Fin N) : K :=
  (∑ t ∈ bothFinite X i j, (X i t).getD 0 * (X j t).getD 0) /
    ((bothFinite X i j).card : K)

/-- The pairwise-complete index set at lag `lag` (both `X[i,t+lag]` and
`X[j,t]` finite). -/
def bothFiniteLag (X : Fin N → Fin T → Option K) (lag : ℕ) (i j : Fin N) :
    Finset (Fin (T - lag)) :=
  Finset.univ.filter fun t => (X i (finShift lag t)).isSome ∧ (X j (finIncl lag t)).isSome

/-- Modelled from the spec wording of §4.1: `cT[i,j]` is the pairwise-complete
ratio between `X[i,·]` shifted forward by `lag` and `X[j,·]` restricted to
`t = 0..T−lag−1`. -/
def cTspec (X : Fin N → Fin T → Option K) (lag : ℕ) (i j : Fin N) : K :=
  (∑ t ∈ bothFiniteLag X lag i j,
      (X i (finShift lag t)).getD 0 * (X j (finIncl lag t)).getD 0) /
    ((bothFiniteLag X lag i j).card : K)

@[simp] theorem omul_isSome (a b : Option K) :
    (omul a b).isSome = (a.isSome && b.isSome) := by
  cases a <;> cases b <;> rfl

theorem finiteCount_omul (x y : Fin T → Option K) :
    finiteCount (fun t => omul (x t) (y t)) =
      (Finset.univ.filter fun t => (x t).isSome ∧ (y t).isSome).card := by
  unfold finiteCount
  congr 1
  apply Finset.filter_congr
  intro t _
  simp

theorem nansum_omul (x y : Fin T → Option K) :
    nansum (fun t => omul (x t) (y t)) =
      ∑ t ∈ Finset.univ.filter (fun t => (x t).isSome ∧ (y t).isSome),
        (x t).getD 0 * (y t).getD 0 := by
  unfold nansum
  rw [← Finset.sum_filter_of_ne (p := fun t => (x t).isSome ∧ (y t).isSome)]
  · apply Finset.sum_congr rfl
    intro t ht
    simp only [Finset.mem_filter] at ht
    obtain ⟨xa, ha⟩ := Option.isSome_iff_exists.mp ht.2.1
    obtain ⟨yb, hb⟩ := Option.isSome_iff_exists.mp ht.2.2
    simp [ha, hb, omul]
  · intro t _ hne
    cases hx : x t with
    | none => simp [omul, hx] at hne
    | some a =>
      cases hy : y t with
      | none => simp [omul, hx, hy] at hne
      | some b => simp [hx, hy]

end Covariance

/-! ## Argsort (`np.argsort()[::-1]`, source lines 72, 78, 91)

`argsort` ascending followed by `[::-1]` is a descending sort of the index
list by the key.  We model it by sorting `[0, …, m−1]` with the relation
`r a b := key b ≤ key a` (descending; tie order is unspecified by the spec). -/

section Argsort

/-- The index list `[0, …, m−1]` sorted by the relation `r`. -/
def sortedIdx {m : ℕ} (r : Fin m → Fin m → Prop) [DecidableRel r] : List (Fin m) :=
  List.insertionSort r (List.finRange m)

theorem sortedIdx_length {m : ℕ} (r : Fin m → Fin m → Prop) [DecidableRel r] :
    (sortedIdx r).length = m := by
  unfold sortedIdx
  rw [List.length_insertionSort, List.length_finRange]

/-- The sorting permutation as a function: position `k` of the result holds
the original index `sortPerm r k` (so permuted data is `data ∘ sortPerm r`,
exactly `data[iSort]` in numpy). -/
def sortPerm {m : ℕ} (r : Fin m → Fin m → Prop) [DecidableRel r] : Fin m → Fin m :=
  fun k => (sortedIdx r).get (Fin.cast (sortedIdx_length r).symm k)

theorem sortedIdx_nodup {m : ℕ} (r : Fin m → Fin m → Prop) [DecidableRel r] :
    (sortedIdx r).Nodup :=
  (List.perm_insertionSort r (List.finRange m)).nodup_iff.mpr (List.nodup_finRange m)

theorem sortPerm_injective {m : ℕ} (r : Fin m → Fin m → Prop) [DecidableRel r] :
    Function.Injective (sortPerm r) := by
  intro a b hab
  have h := List.nodup_iff_injective_get.mp (sortedIdx_nodup r) hab
  have h2 := congrArg Fin.val h
  exact Fin.ext h2

theorem sortPerm_bijective {m : ℕ} (r : Fin m → Fin m → Prop) [DecidableRel r] :
    Function.Bijective (sortPerm r) :=
  Finite.injective_iff_bijective.mp (sortPerm_injective r)

/-- A descending sort by a key in a linear order yields an antitone
composition: the key, read along the sorted positions, never increases. -/
theorem antitone_key_sortPerm {m : ℕ} {α : Type} [LinearOrder α] (key : Fin m → α) :
    Antitone (fun k => key (sortPerm (fun a b => key b ≤ key a) k)) := by
  intro a b hab
  rcases lt_or_eq_of_le hab with hlt | heq
  · haveI : IsTotal (Fin m) (fun a b => key b ≤ key a) :=
      ⟨fun x y => le_total (key y) (key x)⟩
    haveI : IsTrans (Fin m) (fun a b => key b ≤ key a) :=
      ⟨fun _ _ _ hxy hyz => le_trans hyz hxy⟩
    have hsorted := List.sorted_insertionSort (fun a b : Fin m => key b ≤ key a)
      (List.finRange m)
    exact List.Sorted.rel_get_of_lt hsorted (by simpa using hlt)
  · rw [heq]

end Argsort

/-! ## Matrix inverses (`numpy.linalg.inv`)

`LA.inv` raises `LinAlgError Singular matrix` on an exactly singular
matrix; on a nonsingular one it returns the true inverse, modelled by the
adjugate formula `det⁻¹ • adjugate`.  The determinant-zero test lives in
`LIM` where the source calls `LA.inv`. -/

section Inverses

variable {K : Type} [Field K] {n : ℕ}

/-- Inverse of a real (`K`-valued) matrix by the adjugate formula. -/
def minv (M : Matrix (Fin n) (Fin n) K) : Matrix (Fin n) (Fin n) K :=
  M.det⁻¹ • M.adjugate

/-- Inverse of a complex (`CC K`-valued) matrix by the adjugate formula. -/
def cminv (M : Matrix (Fin n) (Fin n) (CC K)) : Matrix (Fin n) (Fin n) (CC K) :=
  CC.cinv M.det • M.adjugate

theorem minv_mul {M : Matrix (Fin n) (Fin n) K} (h : M.det ≠ 0) : minv M * M = 1 := by
  rw [minv, Matrix.smul_mul, Matrix.adjugate_mul, smul_smul, inv_mul_cancel₀ h, one_smul]

theorem cminv_mul {K : Type} [LinearOrderedField K] {M : Matrix (Fin n) (Fin n) (CC K)}
    (h : M.det ≠ 0) : cminv M * M = 1 := by
  rw [cminv, Matrix.smul_mul, Matrix.adjugate_mul, smul_smul, CC.cinv_mul_cancel h, one_smul]

theorem cminv_transpose (M : Matrix (Fin n) (Fin n) (CC K)) :
    (cminv M)ᵀ = cminv Mᵀ := by
  rw [cminv, cminv, Matrix.transpose_smul, Matrix.adjugate_transpose, Matrix.det_transpose]

end Inverses

/-! ## Steps 2–3: eigendecomposition, sorting, normalization, `L`, `Q`
(source lines 67–122)

`numpy` sorts complex values lexicographically by `(re, im)`; `csortLe` is
that order.  Each definition carries the source line it embeds. -/

/-- The ordering `np.argsort` uses on complex values: lexicographic in
`(re, im)`. -/
def csortLe {K : Type} [LinearOrder K] (a b : CC K) : Prop :=
  a.re < b.re ∨ (a.re = b.re ∧ a.im ≤ b.im)

instance {K : Type} [LinearOrder K] (a b : CC K) : Decidable (csortLe a b) := by
  unfold csortLe
  infer_instance

section Pipeline

variable {K : Type} [LinearOrderedField K] [DecidableEq K] {N T : ℕ}
variable (eig : Matrix (Fin N) (Fin N) K → (Fin N → CC K) × Matrix (Fin N) (Fin N) (CC K))
variable (clog : CC K → CC K) (lag : ℕ) (piK : K)
variable (G : Matrix (Fin N) (Fin N) K)

/-- Eigenvalues `g` of `G` as returned by the eigensolver (line 70). -/
def gRaw : Fin N → CC K := (eig G).1

/-- Right eigenvector matrix `u` of `G` as returned (line 70). -/
def uRaw : Matrix (Fin N) (Fin N) (CC K) := (eig G).2

/-- Eigenvalues `eigVal_T` of `Gᵀ` as returned (line 77). -/
def gTRaw : Fin N → CC K := (eig Gᵀ).1

/-- Adjoint eigenvector matrix `v` of `Gᵀ` as returned (line 77). -/
def vRaw : Matrix (Fin N) (Fin N) (CC K) := (eig Gᵀ).2

/-- `iSort = g.argsort()[::-1]` (line 72): descending complex sort of `g`. -/
def iSortP : Fin N → Fin N :=
  sortPerm fun a b => csortLe (gRaw eig G b) (gRaw eig G a)

/-- `iSortT = eigVal_T.argsort()[::-1]` (line 78). -/
def iSortTP : Fin N → Fin N :=
  sortPerm fun a b => csortLe (gTRaw eig G b) (gTRaw eig G a)

/-- `g = g[iSort]` (line 73). -/
def gS1 : Fin N → CC K := fun k => gRaw eig G (iSortP eig G k)

/-- `u = u[:, iSort]` (line 74). -/
def uS1 : Matrix (Fin N) (Fin N) (CC K) :=
  Matrix.of fun i j => uRaw eig G i (iSortP eig G j)

/-- `v = v[:, iSortT]` (line 80). -/
def vS1 : Matrix (Fin N) (Fin N) (CC K) :=
  Matrix.of fun i j => vRaw eig G i (iSortTP eig G j)

/-- `b_tau = np.log(g)` (line 85); `clog` is the principal complex log. -/
def b_tauS : Fin N → CC K := fun k => clog (gS1 eig G k)

/-- `b_alpha = b_tau / lag` (line 86), before the final sort. -/
def b_alphaPre : Fin N → CC K := fun k => CC.divK (b_tauS eig clog G k) (lag : K)

/-- `sortVal = -1 / b_alpha.real` (line 89), the decay-time sort key. -/
def sortValS : Fin N → K := fun k => -1 / (b_alphaPre eig clog lag G k).re

/-- `iSort2 = sortVal.argsort()[::-1]` (line 91): decreasing decay time. -/
def iSort2P : Fin N → Fin N :=
  sortPerm fun a b => sortValS eig clog lag G b ≤ sortValS eig clog lag G a

/-- `u = u[:, iSort2]` (line 92). -/
def uS2 : Matrix (Fin N) (Fin N) (CC K) :=
  Matrix.of fun i j => uS1 eig G i (iSort2P eig clog lag G j)

/-- `v = v[:, iSort2]` (line 93): the adjoint matrix that is returned. -/
def vS2 : Matrix (Fin N) (Fin N) (CC K) :=
  Matrix.of fun i j => vS1 eig G i (iSort2P eig clog lag G j)

/-- `g = g[iSort2]` (line 94): the eigenvalues that are returned. -/
def gS2 : Fin N → CC K := fun k => gS1 eig G (iSort2P eig clog lag G k)

/-- `b_alpha = b_alpha[iSort2]` (line 95): the rates that are returned. -/
def b_alphaS : Fin N → CC K := fun k => b_alphaPre eig clog lag G (iSort2P eig clog lag G k)

/-- `beta`: the diagonal matrix of `b_alpha` (lines 98–99). -/
def betaS : Matrix (Fin N) (Fin N) (CC K) := Matrix.diagonal (b_alphaS eig clog lag G)

/-- `normFactors = np.dot(np.transpose(u), v)` (line 103). -/
def normFactorsS : Matrix (Fin N) (Fin N) (CC K) :=
  (uS2 eig clog lag G)ᵀ * vS2 eig clog lag G

/-- The normalization `u · inv(uᵀ·v)` applied to arbitrary mode matrices
(lines 103–104 in the abstract). -/
def normUOf {n : ℕ} (u v : Matrix (Fin n) (Fin n) (CC K)) :
    Matrix (Fin n) (Fin n) (CC K) :=
  u * cminv (uᵀ * v)

/-- `normU = np.dot(u, LA.inv(normFactors))` (line 104). -/
def normUS : Matrix (Fin N) (Fin N) (CC K) :=
  normUOf (uS2 eig clog lag G) (vS2 eig clog lag G)

/-- `L = np.dot(normU, np.dot(beta, np.transpose(v)))` (line 110). -/
def Lmat : Matrix (Fin N) (Fin N) (CC K) :=
  normUS eig clog lag G * (betaS eig clog lag G * (vS2 eig clog lag G)ᵀ)

/-- Promotion of a real matrix to a complex one (numpy dtype promotion when
a real array meets a complex one). -/
def cmap {a b : ℕ} (M : Matrix (Fin a) (Fin b) K) : Matrix (Fin a) (Fin b) (CC K) :=
  M.map fun x => ⟨x, 0⟩

/-- `Q = -(np.dot(L, c0) + np.dot(c0, np.transpose(L)))` (lines 113–114). -/
def Qmat {n : ℕ} (L c0m : Matrix (Fin n) (Fin n) (CC K)) : Matrix (Fin n) (Fin n) (CC K) :=
  -(L * c0m + c0m * Lᵀ)

/-- `periods = (2 * np.pi) / b_alpha.imag` (line 117). -/
def periodsS : Fin N → K := fun k => 2 * piK / (b_alphaS eig clog lag G k).im

/-- `decayT = -1 / b_alpha.real` (line 118). -/
def decayTS : Fin N → K := fun k => -1 / (b_alphaS eig clog lag G k).re

end Pipeline

/-- The eleven outputs of `LIM`, in the order of the return statement
(line 122): `b_alpha, L, Q, G, c0, cT, normU, v, g, periods, decayT`.
Vectors have length `N` and matrices shape `N×N` by type. -/
structure LIMOutput (N : ℕ) (K : Type) where
  b_alpha : Fin N → CC K
  L : Matrix (Fin N) (Fin N) (CC K)
  Q : Matrix (Fin N) (Fin N) (CC K)
  G : Matrix (Fin N) (Fin N) K
  c0 : Matrix (Fin N) (Fin N) K
  cT : Matrix (Fin N) (Fin N) K
  normU : Matrix (Fin N) (Fin N) (CC K)
  v : Matrix (Fin N) (Fin N) (CC K)
  g : Fin N → CC K
  periods : Fin N → K
  decayT : Fin N → K

/-- The two ways a `LIM` run aborts: `LinAlgError Singular matrix` from
`LA.inv`, and `LinAlgError Array must not contain infs or NaNs` from
`LA.eig` when a NaN covariance entry propagated into `G`. -/
inductive LIMErr where
  | SingularMatrix : LIMErr
  | NonFiniteArray : LIMErr
deriving DecidableEq

section Run

variable {K : Type} [LinearOrderedField K] [DecidableEq K] {N T : ℕ}
variable (eig : Matrix (Fin N) (Fin N) K → (Fin N → CC K) × Matrix (Fin N) (Fin N) (CC K))
variable (clog : CC K → CC K) (lag : ℕ) (piK : K)

/-- Extract a fully finite matrix from an `Option`-valued one; `none` when
some entry is NaN. -/
def allSome {a b : ℕ} (M : Fin a → Fin b → Option K) : Option (Matrix (Fin a) (Fin b) K) :=
  if h : ∀ i j, (M i j).isSome then some (Matrix.of fun i j => (M i j).get (h i j))
  else none

/-- The successful-run payload of `LIM`: the eleven outputs built from the
finite covariance matrices `c0`, `cT` (source lines 67–122). -/
def LIMok (c0 cT : Matrix (Fin N) (Fin N) K) : LIMOutput N K :=
  ⟨b_alphaS eig clog lag (cT * minv c0),
   Lmat eig clog lag (cT * minv c0),
   Qmat (Lmat eig clog lag (cT * minv c0)) (cmap c0),
   cT * minv c0,
   c0,
   cT,
   normUS eig clog lag (cT * minv c0),
   vS2 eig clog lag (cT * minv c0),
   gS2 eig clog lag (cT * minv c0),
   periodsS eig clog lag piK (cT * minv c0),
   decayTS eig clog lag (cT * minv c0)⟩

/-- The whole function `LIM(xDat, lag)` (source lines 34–122).  The run
aborts with `SingularMatrix` where the source calls `LA.inv` on an exactly
singular matrix (lines 67, 104), and with `NonFiniteArray` where a NaN
covariance entry reaches `LA.eig` through `G` (line 70). -/
def LIM (X : Fin N → Fin T → Option K) : Except LIMErr (LIMOutput N K) :=
  match allSome fun i j => c0entry X i j with
  | none => .error .NonFiniteArray
  | some c0 =>
    if c0.det = 0 then .error .SingularMatrix
    else
      match allSome fun i j => cTentry X lag i j with
      | none => .error .NonFiniteArray
      | some cT =>
        if (normFactorsS eig clog lag (cT * minv c0)).det = 0 then .error .SingularMatrix
        else .ok (LIMok eig clog lag piK c0 cT)

end Run

/-! ## Decomposition of a successful run -/

section RunLemmas

variable {K : Type} [LinearOrderedField K] [DecidableEq K] {N T : ℕ}
variable {eig : Matrix (Fin N) (Fin N) K → (Fin N → CC K) × Matrix (Fin N) (Fin N) (CC K)}
variable {clog : CC K → CC K} {lag : ℕ} {piK : K}

theorem LIM_ok_cases {X : Fin N → Fin T → Option K} {out : LIMOutput N K}
    (h : LIM eig clog lag piK X = .ok out) :
    ∃ c0 cT, allSome (fun i j => c0entry X i j) = some c0 ∧ c0.det ≠ 0 ∧
      allSome (fun i j => cTentry X lag i j) = some cT ∧
      (normFactorsS eig clog lag (cT * minv c0)).det ≠ 0 ∧
      out = LIMok eig clog lag piK c0 cT := by
  unfold LIM at h
  split at h
  next => exact absurd h (by simp)
  next c0 hc0 =>
    split at h
    next => exact absurd h (by simp)
    next hdet =>
      split at h
      next => exact absurd h (by simp)
      next cT hcT =>
        split at h
        next => exact absurd h (by simp)
        next hnf =>
          exact ⟨c0, cT, hc0, hdet, hcT, hnf, (Except.ok.inj h).symm⟩

end RunLemmas

/-! ## Claims -/

section Claims

variable {K : Type} [LinearOrderedField K] [DecidableEq K] {N T : ℕ}

/-- C2: for every valid input on which the computation returns, the returned
matrices satisfy `L·c0 + c0·Lᵀ + Q = 0` exactly (the zero `N×N` matrix),
i.e. `Q = −(L·c0 + c0·Lᵀ)` for the returned `L` and `c0`. -/
theorem claim_C2
    (eig : Matrix (Fin N) (Fin N) K → (Fin N → CC K) × Matrix (Fin N) (Fin N) (CC K))
    (clog : CC K → CC K) (lag : ℕ) (piK : K) (X : Fin N → Fin T → Option K)
    (out : LIMOutput N K) (h : LIM eig clog lag piK X = .ok out) :
    out.L * cmap out.c0 + cmap out.c0 * out.Lᵀ + out.Q = 0 := by
  obtain ⟨c0, cT, -, -, -, -, rfl⟩ := LIM_ok_cases h
  show Lmat eig clog lag (cT * minv c0) * cmap c0 + cmap c0 * (Lmat eig clog lag (cT * minv c0))ᵀ +
    Qmat (Lmat eig clog lag (cT * minv c0)) (cmap c0) = 0
  rw [Qmat, add_neg_cancel]

/-- C9: the successful output is the eleven-field record
`b_alpha, L, Q, G, c0, cT, normU, v, g, periods, decayT` of `LIMOutput`
(vector fields of length `N`, matrix fields `N×N` by type), and its Green
function satisfies `G = cT · inverse(c0)` for the returned `c0`, `cT`. -/
theorem claim_C9
    (eig : Matrix (Fin N) (Fin N) K → (Fin N → CC K) × Matrix (Fin N) (Fin N) (CC K))
    (clog : CC K → CC K) (lag : ℕ) (piK : K) (X : Fin N → Fin T → Option K)
    (out : LIMOutput N K) (h : LIM eig clog lag piK X = .ok out) :
    out.G = out.cT * minv out.c0 := by
  obtain ⟨c0, cT, -, -, -, -, rfl⟩ := LIM_ok_cases h
  rfl

/-- C8: for every mode of a successful run, `b_alpha[k] = clog(g[k]) / τ₀`
(with `clog` the principal complex logarithm oracle),
`periods[k] = 2π / Im(b_alpha[k])` and `decayT[k] = −1 / Re(b_alpha[k])`;
and whether a run succeeds is decided by the two determinant tests alone,
so degenerate modes (`Im = 0` or `Re = 0`), which merely put the junk value
of division by zero into `periods`/`decayT`, never make the computation
fail. -/
theorem claim_C8 :
    (∀ (eig : Matrix (Fin N) (Fin N) K → (Fin N → CC K) × Matrix (Fin N) (Fin N) (CC K))
      (clog : CC K → CC K) (lag : ℕ) (piK : K) (X : Fin N → Fin T → Option K)
      (out : LIMOutput N K), LIM eig clog lag piK X = .ok out →
      ∀ k, out.b_alpha k = CC.divK (clog (out.g k)) ((lag : ℕ) : K) ∧
        out.periods k = 2 * piK / (out.b_alpha k).im ∧
        out.decayT k = -1 / (out.b_alpha k).re) ∧
    (∀ (eig : Matrix (Fin N) (Fin N) K → (Fin N → CC K) × Matrix (Fin N) (Fin N) (CC K))
      (clog : CC K → CC K) (lag : ℕ) (piK : K) (X : Fin N → Fin T → Option K)
      (c0 cT : Matrix (Fin N) (Fin N) K),
      allSome (fun i j => c0entry X i j) = some c0 → c0.det ≠ 0 →
      allSome (fun i j => cTentry X lag i j) = some cT →
      (normFactorsS eig clog lag (cT * minv c0)).det ≠ 0 →
      LIM eig clog lag piK X = .ok (LIMok eig clog lag piK c0 cT)) := by
  constructor
  · intro eig clog lag piK X out h k
    obtain ⟨c0, cT, -, -, -, -, rfl⟩ := LIM_ok_cases h
    exact ⟨rfl, rfl, rfl⟩
  · intro eig clog lag piK X c0 cT hc0 hdet hcT hnf
    unfold LIM
    rw [hc0]
    dsimp only
    rw [if_neg hdet, hcT]
    dsimp only
    rw [if_neg hnf]

/-- C4: in the returned outputs one single permutation — the one sorting the
decay-time key `sortVal = −1/Re(b_alpha)` in decreasing order — is applied
jointly to `g`, `u`, `v` and `b_alpha`; `periods` and `decayT` are computed
from the permuted `b_alpha` (and `normU` from the permuted `u`, `v`); and
`decayT` is non-increasing along the returned mode order. -/
theorem claim_C4
    (eig : Matrix (Fin N) (Fin N) K → (Fin N → CC K) × Matrix (Fin N) (Fin N) (CC K))
    (clog : CC K → CC K) (lag : ℕ) (piK : K) (X : Fin N → Fin T → Option K)
    (out : LIMOutput N K) (h : LIM eig clog lag piK X = .ok out) :
    ∃ σ : Equiv.Perm (Fin N),
      out.g = (fun k => gS1 eig (out.cT * minv out.c0) (σ k)) ∧
      uS2 eig clog lag (out.cT * minv out.c0) =
        Matrix.of (fun i j => uS1 eig (out.cT * minv out.c0) i (σ j)) ∧
      out.v = Matrix.of (fun i j => vS1 eig (out.cT * minv out.c0) i (σ j)) ∧
      out.b_alpha = (fun k => b_alphaPre eig clog lag (out.cT * minv out.c0) (σ k)) ∧
      out.periods =
        (fun k => 2 * piK / (b_alphaPre eig clog lag (out.cT * minv out.c0) (σ k)).im) ∧
      out.decayT =
        (fun k => -1 / (b_alphaPre eig clog lag (out.cT * minv out.c0) (σ k)).re) ∧
      out.normU = normUOf (uS2 eig clog lag (out.cT * minv out.c0))
        (vS2 eig clog lag (out.cT * minv out.c0)) ∧
      Antitone out.decayT := by
  obtain ⟨c0, cT, -, -, -, -, rfl⟩ := LIM_ok_cases h
  refine ⟨Equiv.ofBijective _ (sortPerm_bijective
    (fun a b => sortValS eig clog lag (cT * minv c0) b ≤ sortValS eig clog lag (cT * minv c0) a)),
    rfl, rfl, rfl, rfl, rfl, rfl, rfl, ?_⟩
  exact antitone_key_sortPerm (sortValS eig clog lag (cT * minv c0))

end Claims

/-! ## Concrete witness data

A `1×2` all-ones input with lag `1`, a constant eigensolver oracle and the
identity in place of the logarithm oracle; the run succeeds and every stage
is small enough to evaluate. -/

/-- Witness input: one variable, two time steps, both observed as `1`. -/
def Xw : Fin 1 → Fin 2 → Option ℚ := fun _ _ => some 1

/-- The all-ones `1×1` matrix: both covariance matrices of `Xw`. -/
def onesM : Matrix (Fin 1) (Fin 1) ℚ := Matrix.of fun _ _ => 1

/-- Witness eigensolver oracle: eigenvalue `2`, eigenvector `1` (constant). -/
def eig0 : Matrix (Fin 1) (Fin 1) ℚ → (Fin 1 → CC ℚ) × Matrix (Fin 1) (Fin 1) (CC ℚ) :=
  fun _ => (fun _ => ⟨2, 0⟩, Matrix.of fun _ _ => ⟨1, 0⟩)

/-- Witness logarithm oracle (any function works for the claims). -/
def clog0 : CC ℚ → CC ℚ := fun z => z

theorem Xw_c0_eval :
    allSome (fun i j => c0entry Xw i j) = some onesM := by
  have hs : ∀ i j : Fin 1, (c0entry Xw i j).isSome := by decide
  unfold allSome
  rw [dif_pos hs]
  congr 1
  ext i j
  have h1 : c0entry Xw i j = some 1 := by
    norm_num [c0entry, Xw, nansum, omul, finiteCount, fdiv, Fin.sum_univ_two]
  simp [h1, onesM]

theorem Xw_cT_eval :
    allSome (fun i j => cTentry Xw 1 i j) = some onesM := by
  have hs : ∀ i j : Fin 1, (cTentry Xw 1 i j).isSome := by decide
  unfold allSome
  rw [dif_pos hs]
  congr 1
  ext i j
  have h1 : cTentry Xw 1 i j = some 1 := by
    norm_num [cTentry, Xw, nansum, omul, finiteCount, fdiv, Fin.sum_univ_one]
  simp [h1, onesM]

theorem Xw_LIM_eval :
    LIM eig0 clog0 1 0 Xw = .ok (LIMok eig0 clog0 1 0 onesM onesM) := by
  have hdet : ¬ onesM.det = 0 := by
    simp [Matrix.det_fin_one, onesM]
  have hnf : ¬ (normFactorsS eig0 clog0 1 (onesM * minv onesM)).det = 0 := by
    simp [normFactorsS, uS2, vS2, uS1, vS1, uRaw, vRaw, eig0, Matrix.mul_apply,
      Fin.sum_univ_one, Matrix.det_fin_one, CC.ext_iff]
  unfold LIM
  rw [Xw_c0_eval]
  dsimp only
  rw [if_neg hdet, Xw_cT_eval]
  dsimp only
  rw [if_neg hnf]

/-- Witness for C2 at the concrete run `LIM eig0 clog0 1 0 Xw`. -/
theorem claim_C2_witness :
    (LIMok eig0 clog0 1 0 onesM onesM).L * cmap (LIMok eig0 clog0 1 0 onesM onesM).c0 +
      cmap (LIMok eig0 clog0 1 0 onesM onesM).c0 * (LIMok eig0 clog0 1 0 onesM onesM).Lᵀ +
      (LIMok eig0 clog0 1 0 onesM onesM).Q = 0 :=
  claim_C2 eig0 clog0 1 0 Xw (LIMok eig0 clog0 1 0 onesM onesM) Xw_LIM_eval

/-- Witness for C9 at the concrete run `LIM eig0 clog0 1 0 Xw`. -/
theorem claim_C9_witness :
    (LIMok eig0 clog0 1 0 onesM onesM).G =
      (LIMok eig0 clog0 1 0 onesM onesM).cT * minv (LIMok eig0 clog0 1 0 onesM onesM).c0 :=
  claim_C9 eig0 clog0 1 0 Xw (LIMok eig0 clog0 1 0 onesM onesM) Xw_LIM_eval

/-- Witness for C8: the formulas at the concrete successful run (whose single
mode has `Im b_alpha = 0`, so `periods` holds the junk value of division by
zero and the run still succeeds), and the error enumeration at a concrete
failing run. -/
theorem claim_C8_witness :
    ((LIMok eig0 clog0 1 0 onesM onesM).b_alpha 0 =
        CC.divK (clog0 ((LIMok eig0 clog0 1 0 onesM onesM).g 0)) ((1 : ℕ) : ℚ) ∧
      (LIMok eig0 clog0 1 0 onesM onesM).periods 0 =
        2 * 0 / ((LIMok eig0 clog0 1 0 onesM onesM).b_alpha 0).im ∧
      (LIMok eig0 clog0 1 0 onesM onesM).decayT 0 =
        -1 / ((LIMok eig0 clog0 1 0 onesM onesM).b_alpha 0).re) ∧
    LIM eig0 clog0 1 0 Xw = .ok (LIMok eig0 clog0 1 0 onesM onesM) :=
  ⟨claim_C8.1 eig0 clog0 1 0 Xw (LIMok eig0 clog0 1 0 onesM onesM) Xw_LIM_eval 0,
   claim_C8.2 eig0 clog0 1 0 Xw onesM onesM Xw_c0_eval
     (by simp [Matrix.det_fin_one, onesM]) Xw_cT_eval
     (by simp [normFactorsS, uS2, vS2, uS1, vS1, uRaw, vRaw, eig0, Matrix.mul_apply,
       Fin.sum_univ_one, Matrix.det_fin_one, CC.ext_iff])⟩

/-- Witness for C4 at the concrete run `LIM eig0 clog0 1 0 Xw`. -/
theorem claim_C4_witness :
    ∃ σ : Equiv.Perm (Fin 1),
      (LIMok eig0 clog0 1 0 onesM onesM).g =
        (fun k => gS1 eig0 ((LIMok eig0 clog0 1 0 onesM onesM).cT *
          minv (LIMok eig0 clog0 1 0 onesM onesM).c0) (σ k)) ∧
      uS2 eig0 clog0 1 ((LIMok eig0 clog0 1 0 onesM onesM).cT *
          minv (LIMok eig0 clog0 1 0 onesM onesM).c0) =
        Matrix.of (fun i j => uS1 eig0 ((LIMok eig0 clog0 1 0 onesM onesM).cT *
          minv (LIMok eig0 clog0 1 0 onesM onesM).c0) i (σ j)) ∧
      (LIMok eig0 clog0 1 0 onesM onesM).v =
        Matrix.of (fun i j => vS1 eig0 ((LIMok eig0 clog0 1 0 onesM onesM).cT *
          minv (LIMok eig0 clog0 1 0 onesM onesM).c0) i (σ j)) ∧
      (LIMok eig0 clog0 1 0 onesM onesM).b_alpha =
        (fun k => b_alphaPre eig0 clog0 1 ((LIMok eig0 clog0 1 0 onesM onesM).cT *
          minv (LIMok eig0 clog0 1 0 onesM onesM).c0) (σ k)) ∧
      (LIMok eig0 clog0 1 0 onesM onesM).periods =
        (fun k => 2 * 0 / (b_alphaPre eig0 clog0 1 ((LIMok eig0 clog0 1 0 onesM onesM).cT *
          minv (LIMok eig0 clog0 1 0 onesM onesM).c0) (σ k)).im) ∧
      (LIMok eig0 clog0 1 0 onesM onesM).decayT =
        (fun k => -1 / (b_alphaPre eig0 clog0 1 ((LIMok eig0 clog0 1 0 onesM onesM).cT *
          minv (LIMok eig0 clog0 1 0 onesM onesM).c0) (σ k)).re) ∧
      (LIMok eig0 clog0 1 0 onesM onesM).normU =
        normUOf (uS2 eig0 clog0 1 ((LIMok eig0 clog0 1 0 onesM onesM).cT *
          minv (LIMok eig0 clog0 1 0 onesM onesM).c0))
          (vS2 eig0 clog0 1 ((LIMok eig0 clog0 1 0 onesM onesM).cT *
            minv (LIMok eig0 clog0 1 0 onesM onesM).c0)) ∧
      Antitone (LIMok eig0 clog0 1 0 onesM onesM).decayT :=
  claim_C4 eig0 clog0 1 0 Xw (LIMok eig0 clog0 1 0 onesM onesM) Xw_LIM_eval

/-! ## Covariance claims -/

theorem omul_comm {K : Type} [Field K] (a b : Option K) : omul a b = omul b a := by
  cases a <;> cases b <;> simp [omul, mul_comm]

/-- C1: for every valid input and lag, the covariance entries are the
pairwise-complete, non-centered second moments of the spec: each entry sums
the products over exactly the time indices where both values are finite and
divides by that count; no mean is subtracted anywhere. -/
theorem claim_C1 {K : Type} [Field K] [DecidableEq K] [CharZero K] {N T : ℕ} :
    (∀ (X : Fin N → Fin T → Option K) (i j : Fin N),
      (bothFinite X i j).card ≠ 0 → c0entry X i j = some (c0spec X i j)) ∧
    (∀ (X : Fin N → Fin T → Option K) (lag : ℕ) (i j : Fin N),
      (bothFiniteLag X lag i j).card ≠ 0 → cTentry X lag i j = some (cTspec X lag i j)) := by
  constructor
  · intro X i j hcard
    unfold c0entry
    rw [nansum_omul, finiteCount_omul]
    unfold fdiv
    rw [if_neg (by exact_mod_cast hcard)]
    rfl
  · intro X lag i j hcard
    unfold cTentry
    rw [nansum_omul, finiteCount_omul]
    unfold fdiv
    rw [if_neg (by exact_mod_cast hcard)]
    rfl

/-- Concrete input for the C1 witness: variable 0 misses its second sample. -/
def Xc1 : Fin 2 → Fin 2 → Option ℚ := fun i t =>
  if i = 0 then (if t = 0 then some 1 else none)
  else (if t = 0 then some 2 else some 3)

/-- Witness for C1 at `Xc1` (which has a NaN entry), lag `1`. -/
theorem claim_C1_witness :
    c0entry Xc1 0 1 = some (c0spec Xc1 0 1) ∧
      cTentry Xc1 1 1 0 = some (cTspec Xc1 1 1 0) :=
  ⟨(@claim_C1 ℚ _ _ _ 2 2).1 Xc1 0 1 (by decide),
   (@claim_C1 ℚ _ _ _ 2 2).2 Xc1 1 1 0 (by decide)⟩

/-- Concrete input for the C10 asymmetry conjunct. -/
def Xc10 : Fin 2 → Fin 2 → Option ℚ := fun i t =>
  if i = 0 then (if t = 0 then some 1 else some 2)
  else (if t = 0 then some 3 else some 5)

/-- C10: `c0` is exactly symmetric — entries `(i,j)` and `(j,i)` sum the
identical products over the identical index set — while `cT` has no such
guarantee (it fails already on the concrete input `Xc10`). -/
theorem claim_C10 :
    (∀ (K : Type) [Field K] [DecidableEq K] (N T : ℕ)
      (X : Fin N → Fin T → Option K) (i j : Fin N), c0entry X i j = c0entry X j i) ∧
    cTentry Xc10 1 0 1 ≠ cTentry Xc10 1 1 0 := by
  constructor
  · intro K _ _ N T X i j
    unfold c0entry
    rw [show (fun t => omul (X i t) (X j t)) = fun t => omul (X j t) (X i t) from
      funext fun t => omul_comm _ _]
  · have h1 : cTentry Xc10 1 0 1 = some 6 := by
      norm_num [cTentry, Xc10, nansum, omul, finiteCount, fdiv, Fin.sum_univ_one,
        finShift, finIncl, Fin.ext_iff]
    have h2 : cTentry Xc10 1 1 0 = some 5 := by
      norm_num [cTentry, Xc10, nansum, omul, finiteCount, fdiv, Fin.sum_univ_one,
        finShift, finIncl, Fin.ext_iff]
    rw [h1, h2]
    simp

/-! ## Error-handling claims -/

/-- C5: the run fails with the SingularMatrix error — returning no result —
whenever the (finite) `c0` is not invertible, and whenever the
mode-normalization factor matrix `uᵀ·v` is not invertible. -/
theorem claim_C5 {K : Type} [LinearOrderedField K] [DecidableEq K] {N T : ℕ} :
    (∀ (eig : Matrix (Fin N) (Fin N) K → (Fin N → CC K) × Matrix (Fin N) (Fin N) (CC K))
      (clog : CC K → CC K) (lag : ℕ) (piK : K) (X : Fin N → Fin T → Option K)
      (c0 : Matrix (Fin N) (Fin N) K),
      allSome (fun i j => c0entry X i j) = some c0 → c0.det = 0 →
      LIM eig clog lag piK X = .error .SingularMatrix) ∧
    (∀ (eig : Matrix (Fin N) (Fin N) K → (Fin N → CC K) × Matrix (Fin N) (Fin N) (CC K))
      (clog : CC K → CC K) (lag : ℕ) (piK : K) (X : Fin N → Fin T → Option K)
      (c0 cT : Matrix (Fin N) (Fin N) K),
      allSome (fun i j => c0entry X i j) = some c0 → c0.det ≠ 0 →
      allSome (fun i j => cTentry X lag i j) = some cT →
      (normFactorsS eig clog lag (cT * minv c0)).det = 0 →
      LIM eig clog lag piK X = .error .SingularMatrix) := by
  constructor
  · intro eig clog lag piK X c0 hc0 hdet
    unfold LIM
    rw [hc0]
    dsimp only
    rw [if_pos hdet]
  · intro eig clog lag piK X c0 cT hc0 hdet hcT hnf
    unfold LIM
    rw [hc0]
    dsimp only
    rw [if_neg hdet, hcT]
    dsimp only
    rw [if_pos hnf]

/-- Concrete duplicated-constant-row input for the C5 witness. -/
def Xdup : Fin 2 → Fin 2 → Option ℚ := fun _ _ => some 1

/-- The all-ones `2×2` matrix: the (singular) `c0` of `Xdup`. -/
def ones2M : Matrix (Fin 2) (Fin 2) ℚ := Matrix.of fun _ _ => 1

/-- A constant eigensolver oracle for `2×2` inputs. -/
def eig2 : Matrix (Fin 2) (Fin 2) ℚ → (Fin 2 → CC ℚ) × Matrix (Fin 2) (Fin 2) (CC ℚ) :=
  fun _ => (fun _ => ⟨1, 0⟩, Matrix.of fun _ _ => ⟨1, 0⟩)

/-- An eigensolver oracle whose eigenvector matrix is zero, so `uᵀ·v` is
singular while `c0` is not. -/
def eigZ : Matrix (Fin 1) (Fin 1) ℚ → (Fin 1 → CC ℚ) × Matrix (Fin 1) (Fin 1) (CC ℚ) :=
  fun _ => (fun _ => ⟨1, 0⟩, 0)

theorem Xdup_c0_eval :
    allSome (fun i j => c0entry Xdup i j) = some ones2M := by
  have hs : ∀ i j : Fin 2, (c0entry Xdup i j).isSome := by decide
  unfold allSome
  rw [dif_pos hs]
  congr 1
  ext i j
  have h1 : c0entry Xdup i j = some 1 := by
    norm_num [c0entry, Xdup, nansum, omul, finiteCount, fdiv, Fin.sum_univ_two]
  simp [h1, ones2M]

/-- Witness for C5: the duplicated-constant-row input aborts with
SingularMatrix, and so does a run whose `uᵀ·v` is singular. -/
theorem claim_C5_witness :
    LIM eig2 clog0 1 0 Xdup = .error .SingularMatrix ∧
      LIM eigZ clog0 1 0 Xw = .error .SingularMatrix := by
  constructor
  · exact claim_C5.1 eig2 clog0 1 0 Xdup ones2M Xdup_c0_eval
      (by simp [Matrix.det_fin_two, ones2M])
  · exact claim_C5.2 eigZ clog0 1 0 Xw onesM onesM Xw_c0_eval
      (by simp [Matrix.det_fin_one, onesM]) Xw_cT_eval
      (by simp [normFactorsS, uS2, uS1, uRaw, eigZ, Matrix.mul_apply,
        Fin.sum_univ_one, Matrix.det_fin_one, CC.ext_iff])

/-- Concrete input whose second variable is never observed: the pair `(0,1)`
has zero mutually-finite samples. -/
def Xc6 : Fin 2 → Fin 2 → Option ℚ := fun i t =>
  if i = 0 then some (if t = 0 then 1 else 2) else none

/-- Counterexample to C6: at `Xc6` the pair `(0,1)` has zero mutually-finite
samples, yet the covariance builder silently produces the NaN entry
(`none`) and the run continues — only to abort much later, inside the
eigensolver, with the non-finite-array error instead of any
InsufficientDataError (which does not exist in the code). -/
theorem claim_C6_counterexample :
    c0entry Xc6 0 1 = none ∧ c0entry Xc6 0 0 = some (5 / 2) ∧
      LIM eig2 clog0 1 0 Xc6 = .error .NonFiniteArray := by
  refine ⟨by decide, ?_, ?_⟩
  · norm_num [c0entry, Xc6, nansum, omul, finiteCount, fdiv, Fin.sum_univ_two]
  · unfold LIM
    rw [show allSome (fun i j => c0entry Xc6 i j) = none from by
      unfold allSome
      rw [dif_neg]
      decide]

/-- C6 as amended: if a variable pair has zero mutually-finite samples at
lag 0 or at the given lag, the corresponding covariance entry is the NaN
value `0/0` (`none`) and the computation continues; no domain error is
raised. -/
theorem claim_C6_amended {K : Type} [Field K] [DecidableEq K] {N T : ℕ} :
    (∀ (X : Fin N → Fin T → Option K) (i j : Fin N),
      (bothFinite X i j).card = 0 → c0entry X i j = none) ∧
    (∀ (X : Fin N → Fin T → Option K) (lag : ℕ) (i j : Fin N),
      (bothFiniteLag X lag i j).card = 0 → cTentry X lag i j = none) := by
  constructor
  · intro X i j hcard
    unfold c0entry
    rw [finiteCount_omul]
    unfold fdiv
    unfold bothFinite at hcard
    rw [if_pos (by rw [hcard, Nat.cast_zero])]
  · intro X lag i j hcard
    unfold cTentry
    rw [finiteCount_omul]
    unfold fdiv
    unfold bothFiniteLag at hcard
    rw [if_pos (by rw [hcard, Nat.cast_zero])]

/-- Witness for the amended C6 at the concrete zero-overlap input. -/
theorem claim_C6_amended_witness :
    c0entry Xc6 0 1 = none ∧ cTentry Xc6 1 0 1 = none :=
  ⟨(@claim_C6_amended ℚ _ _ 2 2).1 Xc6 0 1 (by decide),
   (@claim_C6_amended ℚ _ _ 2 2).2 Xc6 1 0 1 (by decide)⟩

/-- Concrete `1×1` input run at `lag = T = 1`. -/
def Xc7 : Fin 1 → Fin 1 → Option ℚ := fun _ _ => some 1

/-- Counterexample to C7: at `lag = T` (an invalid lag per the claim) the
code does not abort with any ShapeError: it computes the full `c0`
normally — an intermediate result — and every `cT` entry is NaN, so the run only
dies later at the eigensolver with the non-finite-array error. -/
theorem claim_C7_counterexample :
    c0entry Xc7 0 0 = some 1 ∧ LIM eig0 clog0 1 0 Xc7 = .error .NonFiniteArray := by
  constructor
  · norm_num [c0entry, Xc7, nansum, omul, finiteCount, fdiv, Fin.sum_univ_one]
  · unfold LIM
    have hc0 : allSome (fun i j : Fin 1 => c0entry Xc7 i j) =
        some (Matrix.of fun _ _ => (1 : ℚ)) := by
      have hs : ∀ i j : Fin 1, (c0entry Xc7 i j).isSome := by decide
      unfold allSome
      rw [dif_pos hs]
      congr 1
      ext i j
      have h1 : c0entry Xc7 i j = some 1 := by
        norm_num [c0entry, Xc7, nansum, omul, finiteCount, fdiv, Fin.sum_univ_one]
      simp [h1]
    rw [hc0]
    dsimp only
    rw [if_neg (by simp [Matrix.det_fin_one]),
      show allSome (fun i j : Fin 1 => cTentry Xc7 1 i j) = none from by
        unfold allSome
        rw [dif_neg]
        decide]

/-- C7 as amended (no further than the counterexample forces): the code
performs no input validation and has no ShapeError; in particular at
`lag = T` the covariance stage still runs — `c0` is built normally while
every `cT` entry has zero finite pairs and is NaN (`none`). -/
theorem claim_C7_amended {K : Type} [Field K] [DecidableEq K] {N T : ℕ}
    (X : Fin N → Fin T → Option K) (lag : ℕ) (h : T ≤ lag) :
    ∀ i j, cTentry X lag i j = none := by
  intro i j
  have h0 : (Finset.univ.filter fun t : Fin (T - lag) =>
      ((fun t : Fin (T - lag) =>
        omul (X i (finShift lag t)) (X j (finIncl lag t))) t).isSome).card = 0 := by
    have hT : T - lag = 0 := Nat.sub_eq_zero_of_le h
    have hle := Finset.card_filter_le (Finset.univ : Finset (Fin (T - lag)))
      fun t => ((fun t : Fin (T - lag) =>
        omul (X i (finShift lag t)) (X j (finIncl lag t))) t).isSome
    rw [Finset.card_univ, Fintype.card_fin] at hle
    omega
  unfold cTentry finiteCount
  unfold fdiv
  rw [if_pos (by rw [h0, Nat.cast_zero])]

/-- Witness for the amended C7 at the concrete `lag = T = 1` input. -/
theorem claim_C7_amended_witness : cTentry Xc7 1 0 0 = none :=
  claim_C7_amended Xc7 1 (by decide) 0 0

/-! ## C3: biorthogonal normalization -/

/-- C3: whenever the columns of `u` are eigenvectors of `G` and the columns
of `v` are eigenvectors of `Gᵀ` for the same, pairwise distinct eigenvalues
(the generic situation the two aligned eigensolver calls produce), and the
normalization factor matrix `uᵀ·v` is invertible (no SingularMatrix), the
returned `normU = u · inverse(uᵀ·v)` satisfies `normUᵀ·v = 1` exactly. -/
theorem claim_C3 {K : Type} [LinearOrderedField K] {n : ℕ}
    (Gc u v : Matrix (Fin n) (Fin n) (CC K)) (lam : Fin n → CC K)
    (hu : ∀ j, Gc *ᵥ (fun i => u i j) = fun i => lam j * u i j)
    (hv : ∀ j, Gcᵀ *ᵥ (fun i => v i j) = fun i => lam j * v i j)
    (hdist : Function.Injective lam)
    (hdet : (uᵀ * v).det ≠ 0) :
    (normUOf u v)ᵀ * v = 1 := by
  have key : ∀ i j, lam i * (uᵀ * v) i j = lam j * (uᵀ * v) i j := by
    intro i j
    have h1 : (uᵀ * v) i j =
        Matrix.dotProduct (fun k => u k i) (fun k => v k j) := by
      simp [Matrix.mul_apply, Matrix.dotProduct, Matrix.transpose_apply]
    have h2 : lam i * (uᵀ * v) i j =
        Matrix.dotProduct (Gc *ᵥ fun k => u k i) (fun k => v k j) := by
      rw [hu i, h1]
      simp [Matrix.dotProduct, Finset.mul_sum, mul_assoc]
    have h3 : Matrix.dotProduct (Gc *ᵥ fun k => u k i) (fun k => v k j) =
        Matrix.dotProduct (fun k => u k i) (Gcᵀ *ᵥ fun k => v k j) := by
      rw [Matrix.dotProduct_comm, Matrix.dotProduct_mulVec, ← Matrix.mulVec_transpose,
        Matrix.dotProduct_comm]
    have h4 : Matrix.dotProduct (fun k => u k i) (Gcᵀ *ᵥ fun k => v k j) =
        lam j * (uᵀ * v) i j := by
      rw [hv j, h1]
      simp only [Matrix.dotProduct, Finset.mul_sum]
      exact Finset.sum_congr rfl fun k _ => by ring
    rw [h2, h3, h4]
  have hoff : ∀ i j, i ≠ j → (uᵀ * v) i j = 0 := by
    intro i j hij
    have hlam : lam i - lam j ≠ 0 := sub_ne_zero.mpr fun hh => hij (hdist hh)
    have h5 : (lam i - lam j) * (uᵀ * v) i j = 0 := by
      rw [sub_mul, key i j, sub_self]
    have h6 := congrArg (fun x => CC.cinv (lam i - lam j) * x) h5
    simpa [← mul_assoc, CC.cinv_mul_cancel hlam] using h6
  have hMs : (uᵀ * v)ᵀ = uᵀ * v := by
    refine Matrix.ext fun i j => ?_
    by_cases hij : i = j
    · subst hij; rfl
    · rw [Matrix.transpose_apply, hoff j i (Ne.symm hij), hoff i j hij]
  rw [normUOf, Matrix.transpose_mul, Matrix.mul_assoc, cminv_transpose, hMs]
  exact cminv_mul hdet

/-- Witness data for C3: a `1×1` system with eigenvalue `2`. -/
def Gc3 : Matrix (Fin 1) (Fin 1) (CC ℚ) := Matrix.of fun _ _ => ⟨2, 0⟩

/-- Witness mode matrix (eigenvector `1`). -/
def u3 : Matrix (Fin 1) (Fin 1) (CC ℚ) := Matrix.of fun _ _ => ⟨1, 0⟩

/-- Witness adjoint matrix (eigenvector `1`). -/
def v3 : Matrix (Fin 1) (Fin 1) (CC ℚ) := Matrix.of fun _ _ => ⟨1, 0⟩

/-- Witness for C3 at the concrete `1×1` eigensystem. -/
theorem claim_C3_witness : (normUOf u3 v3)ᵀ * v3 = 1 :=
  claim_C3 Gc3 u3 v3 (fun _ => ⟨2, 0⟩)
    (fun j => by
      funext i
      simp [Gc3, u3, Matrix.mulVec, Matrix.dotProduct, Fin.sum_univ_one])
    (fun j => by
      funext i
      simp [Gc3, v3, Matrix.mulVec, Matrix.dotProduct, Fin.sum_univ_one,
        Matrix.transpose_apply])
    (fun a b _ => Subsingleton.elim a b)
    (by simp [u3, v3, Matrix.det_fin_one, Matrix.mul_apply, Fin.sum_univ_one, CC.ext_iff])
